import Mathlib

/-!
Shallow embedding of the CSV Joiner Portal core (src/portal_app.py).

The program parses uploaded CSV files into pandas DataFrames, optionally
drops every column whose name ends in `_Confidence`, rounds every column
whose name ends in `_X`, `_Y` or `_Z` to a nullable integer column
(`round().astype("Int64")`, numpy rounding is round-half-to-even),
concatenates the frames in the user-chosen order and serializes the result
with `to_csv`.

Modelling decisions:
- a DataFrame is a `Table`: a header (column names) plus rows of cells;
- a cell is a string, a missing value (pandas NaN or NA), an exact decimal
  number `m / 10 ^ e` (the idealization of a parsed CSV float; binary
  floating point representation error is not modelled), or an `Int64`
  integer as produced by `astype("Int64")`;
- pandas `Series.round` raises a TypeError on an object (non-numeric)
  column, so rounding a string cell is an error; NaN passes through
  `round` and stays missing after `astype("Int64")`;
- `pd.read_csv` is not modelled: an uploaded file carries its parsed table;
- fallible steps return `Except String`, modelling a raised exception, in
  which case the handler produces no downloadable bytes.
-/

namespace CSVPortal

/-- Cells of a DataFrame column. `num m e` is the exact decimal m / 10 ^ e;
`int n` is an Int64 value as produced by `astype("Int64")`; `null` is a
missing value (NaN or NA). -/
inductive Cell where
  | str (s : String)
  | num (m : ℤ) (e : ℕ)
  | int (n : ℤ)
  | null
deriving DecidableEq

/-- A DataFrame: named columns and positional rows. Row r holds the cell of
column `header[i]` at position i. -/
structure Table where
  header : List String
  rows : List (List Cell)
deriving DecidableEq

/-- A well formed (rectangular) table, as every pandas DataFrame is. -/
def Table.WF (t : Table) : Prop := ∀ r ∈ t.rows, r.length = t.header.length

instance (t : Table) : Decidable t.WF :=
  inferInstanceAs (Decidable (∀ r ∈ t.rows, r.length = t.header.length))

/-- An uploaded file: the widget exposes `f.name` and `pd.read_csv(f)`
gives its parsed table. -/
structure InputFile where
  name : String
  table : Table
deriving DecidableEq

/-- Python `s.endswith(post)`: character-level suffix test. -/
def strEndsWith (s post : String) : Bool :=
  post.data.isSuffixOf s.data

/-- Line 45 of portal_app.py: `col.endswith(("_X", "_Y", "_Z"))`. -/
def matchXYZ (col : String) : Bool :=
  strEndsWith col "_X" || strEndsWith col "_Y" || strEndsWith col "_Z"

/-- Line 101 of portal_app.py: `c.endswith("_Confidence")`. -/
def isConfCol (col : String) : Bool :=
  strEndsWith col "_Confidence"

/-- Round the exact decimal m / 10 ^ e to the nearest integer, ties to the
even neighbour: the rounding rule of numpy rint, used by pandas round. -/
def roundHalfEvenDec (m : ℤ) (e : ℕ) : ℤ :=
  let d : ℤ := Int.ofNat (10 ^ e)
  let n : ℤ := Int.fdiv m d
  let r : ℤ := m - d * n
  if 2 * r < d then n
  else if d < 2 * r then n + 1
  else if n % 2 = 0 then n else n + 1

/-- Total version of the rounding step on one cell: decimals round to Int64
integers, Int64 stays, missing stays missing, strings are left alone (the
fallible wrapper below raises on them instead). -/
def roundCellTotal : Cell → Cell
  | .num m e => .int (roundHalfEvenDec m e)
  | .int n => .int n
  | c => c

/-- The transformation applied to one cell of one column, as a pure
function: rounding where the column name has an _X, _Y or _Z suffix. -/
def stepCell (p : String × Cell) : Cell :=
  if matchXYZ p.1 then roundCellTotal p.2 else p.2

/-- Line 46 of portal_app.py, per cell: `round().astype("Int64")`. A string
cell means the column had object dtype, on which pandas round raises
TypeError; NaN stays missing through round and astype. -/
def roundCell : Cell → Except String Cell
  | .num m e => .ok (.int (roundHalfEvenDec m e))
  | .int n => .ok (.int n)
  | .null => .ok .null
  | .str s => .error ("TypeError: cannot round non-numeric value " ++ s)

/-- Lines 44-46 of portal_app.py applied across one row: every cell whose
column name ends in _X, _Y or _Z is rounded, the rest are untouched. -/
def process_dfRow : List String → List Cell → Except String (List Cell)
  | _, [] => .ok []
  | [], _ :: _ => .ok []
  | n :: h, c :: r =>
    match (if matchXYZ n then roundCell c else .ok c) with
    | .error e => .error e
    | .ok c₁ =>
      match process_dfRow h r with
      | .error e => .error e
      | .ok r₁ => .ok (c₁ :: r₁)

/-- Effectful map over a list, stopping at the first error, like a Python
loop in which any iteration may raise. -/
def mapExcept (f : α → Except String β) : List α → Except String (List β)
  | [] => .ok []
  | a :: as =>
    match f a with
    | .error e => .error e
    | .ok b =>
      match mapExcept f as with
      | .error e => .error e
      | .ok bs => .ok (b :: bs)

/-- Lines 42-47 of portal_app.py, `process_df`: strip decimals from any
column ending in _X, _Y or _Z. -/
def process_df (t : Table) : Except String Table :=
  match mapExcept (process_dfRow t.header) t.rows with
  | .error e => .error e
  | .ok rs => .ok ⟨t.header, rs⟩

/-- Lines 44-46 of portal_app.py write the rounded columns back into the
argument DataFrame (`df[col] = ...`) and return `df` itself, so after the
call the table seen by the caller through the argument is the returned
table, not the original one. This definition gives the state of the
argument after the call. -/
def process_df_argAfterCall (t : Table) : Except String Table :=
  process_df t

/-- Lines 100-102 of portal_app.py applied to one row: keep the cells of
the columns that do not end in _Confidence. -/
def dropConfRow : List String → List Cell → List Cell
  | n :: h, c :: r =>
    if isConfCol n then dropConfRow h r else c :: dropConfRow h r
  | _, _ => []

/-- Lines 100-102 of portal_app.py: `df.drop(columns=conf_cols)` where
`conf_cols` is every column ending in _Confidence. -/
def dropConfidence (t : Table) : Table :=
  ⟨t.header.filter (fun n => !isConfCol n), t.rows.map (dropConfRow t.header)⟩

/-- Lines 100-105 of portal_app.py, the per-file pipeline: optionally drop
confidence columns, then strip decimals. -/
def transform (t : Table) (dropConf : Bool) : Except String Table :=
  process_df (if dropConf then dropConfidence t else t)

/-- Value of column n in a source row whose own header is h: the cell
paired with the first occurrence of n, or missing when the row has no such
column. This is how pandas concat fills the union columns. -/
def rowLookup : List String → List Cell → String → Cell
  | n :: h, c :: r, m => if n = m then c else rowLookup h r m
  | _, _, _ => .null

/-- Append the columns of one more frame to an accumulated header, keeping
only first occurrences: the order-of-first-appearance union used by
pd.concat with join outer and sort False. -/
def addCols (acc : List String) (h : List String) : List String :=
  h.foldl (fun a n => if n ∈ a then a else a ++ [n]) acc

/-- Combined header of pd.concat: union of all headers in the order each
column is first encountered across the frames in merge order. -/
def unionHeaders (ts : List Table) : List String :=
  ts.foldl (fun a t => addCols a t.header) []

/-- Reindex one source row (with source header h) to the union header u:
missing columns become missing values. -/
def alignRow (h : List String) (u : List String) (r : List Cell) : List Cell :=
  u.map (rowLookup h r)

/-- Rows of pd.concat: each block of source rows in order, reindexed to the
union header. -/
def concatRows (ts : List Table) (u : List String) : List (List Cell) :=
  match ts with
  | [] => []
  | t :: rest => t.rows.map (alignRow t.header u) ++ concatRows rest u

/-- Line 109 of portal_app.py: `pd.concat(dfs, ignore_index=True)`. -/
def concatTables (ts : List Table) : Table :=
  ⟨unionHeaders ts, concatRows ts (unionHeaders ts)⟩

/-- True when csv QUOTE_MINIMAL must quote the field. -/
def needsQuote (s : String) : Bool :=
  s.data.any (fun c => c == ',' || c == '"' || c == '\n' || c == '\r')

/-- Double every double-quote character, the csv escaping rule. -/
def dupQuotes : List Char → List Char
  | [] => []
  | c :: cs => if c == '"' then '"' :: '"' :: dupQuotes cs else c :: dupQuotes cs

/-- Quote a field the way the csv writer used by to_csv does. -/
def csvQuote (s : String) : String :=
  if needsQuote s then "\"" ++ String.mk (dupQuotes s.data) ++ "\"" else s

/-- Serialization of one cell by to_csv: missing values become an empty
field, Int64 values print as exact integers. Unrounded decimals keep an
abstract mantissa-exponent form; no claim serializes one, and binary float
formatting is outside the model. -/
def renderCell : Cell → String
  | .str s => csvQuote s
  | .int n => toString n
  | .num m e => if e = 0 then toString m else toString m ++ "e-" ++ toString e
  | .null => ""

/-- Comma-join the fields of one line. -/
def joinComma : List String → String
  | [] => ""
  | [x] => x
  | x :: xs => x ++ "," ++ joinComma xs

/-- Concatenate the produced lines. -/
def concatLines : List String → String
  | [] => ""
  | l :: ls => l ++ concatLines ls

/-- Lines 110-111 of portal_app.py: `combined.to_csv(buf, index=False)`,
header line first, then one line per row, each line newline-terminated. -/
def serialize (t : Table) : String :=
  joinComma (t.header.map csvQuote) ++ "\n" ++
    concatLines (t.rows.map (fun r => joinComma (r.map renderCell) ++ "\n"))

/-- Line 94 of portal_app.py: `file_map = {f.name: f for f in uploaded_files}`.
A Python dict comprehension lets a later file with the same name overwrite
an earlier one, so lookup finds the last occurrence; the tail of the list
is consulted first. -/
def file_map : List InputFile → String → Option Table
  | [], _ => none
  | f :: fs, n =>
    match file_map fs n with
    | some t => some t
    | none => if f.name = n then some f.table else none

/-- Lines 93-111 of portal_app.py, the Process and Download handler: for
each name in the chosen order, look the file up by name (a missing key
raises KeyError), drop confidence columns when requested, strip decimals,
then concatenate and serialize. `pd.concat` of an empty list raises a
ValueError. An error means nothing is offered for download. -/
def merge (files : List InputFile) (order : List String) (dropConf : Bool) :
    Except String String :=
  match mapExcept (fun n =>
      match file_map files n with
      | some t => transform t dropConf
      | none => .error ("KeyError: " ++ n)) order with
  | .error e => .error e
  | .ok ts =>
    if ts.isEmpty then .error "ValueError: No objects to concatenate"
    else .ok (serialize (concatTables ts))

/-- Rows of a table viewed as records: the function from column names to
cell values that each row denotes, insensitive to column order. -/
def records (t : Table) : List (String → Cell) :=
  t.rows.map (fun r => fun n => rowLookup t.header r n)

/-- The file1.csv of the concrete scenario: columns Name, Pos_X, Pos_Y,
Pos_Confidence with the single row a, 1.6, 2.4, 0.91 (1.6 is the decimal
16 / 10 ^ 1, and so on). -/
def file1 : InputFile :=
  ⟨"file1.csv", ⟨["Name", "Pos_X", "Pos_Y", "Pos_Confidence"],
    [[Cell.str "a", Cell.num 16 1, Cell.num 24 1, Cell.num 91 2]]⟩⟩

/-- The file2.csv of the concrete scenario: columns Name, Pos_X, Pos_Y with
the single row b, 3.5, 4.5. -/
def file2 : InputFile :=
  ⟨"file2.csv", ⟨["Name", "Pos_X", "Pos_Y"],
    [[Cell.str "b", Cell.num 35 1, Cell.num 45 1]]⟩⟩

/-- True when the computation raised, in which case the handler offers no
bytes for download. -/
def isErr {γ : Type} : Except String γ → Bool
  | .error _ => true
  | .ok _ => false

/-- Small table with one decimal column ending in _X, used as a concrete
input below: one column P_X holding the single value 1.5. -/
def tX : Table := ⟨["P_X"], [[Cell.num 15 1]]⟩

/-- The transform of tX: 1.5 rounds half-to-even down to the integer 2. -/
def tX₁ : Table := ⟨["P_X"], [[Cell.int 2]]⟩

/-- Small table with one string column Q, untouched by the transform. -/
def tQ : Table := ⟨["Q"], [[Cell.str "v"]]⟩

/-- Table with one matched column and one confidence column. -/
def tConf : Table :=
  ⟨["P_X", "P_Confidence"], [[Cell.num 15 1, Cell.num 91 2]]⟩

/-- Table with a matched column holding a missing value and a decimal. -/
def tN : Table := ⟨["A_X"], [[Cell.null], [Cell.num 15 1]]⟩

/-- The transform of tN: missing stays missing, 1.5 becomes the Int64 2. -/
def tN₁ : Table := ⟨["A_X"], [[Cell.null], [Cell.int 2]]⟩

/-- Uploaded file A.csv carrying tX. -/
def fileA : InputFile := ⟨"A.csv", tX⟩

/-- Uploaded file B.csv carrying tQ. -/
def fileB : InputFile := ⟨"B.csv", tQ⟩

/-- First of two distinct uploads that share the name dup.csv. -/
def fileDup1 : InputFile := ⟨"dup.csv", tX⟩

/-- Second of two distinct uploads that share the name dup.csv. -/
def fileDup2 : InputFile := ⟨"dup.csv", tQ⟩

/-! Helper lemmas about the effectful list map. -/

theorem mapExcept_ok_length (f : α → Except String β) (l : List α)
    (l₁ : List β) (h : mapExcept f l = .ok l₁) : l₁.length = l.length := by
  induction l generalizing l₁ with
  | nil =>
    simp only [mapExcept] at h
    cases h
    rfl
  | cons a as ih =>
    simp only [mapExcept] at h
    cases hfa : f a <;> rw [hfa] at h
    · exact absurd h (by simp)
    · cases hm : mapExcept f as <;> rw [hm] at h
      · exact absurd h (by simp)
      · cases h
        simp [ih _ hm]

theorem mapExcept_ok_map (f : α → Except String β) (g : α → β)
    (hfg : ∀ a b, f a = .ok b → b = g a) (l : List α) (l₁ : List β)
    (h : mapExcept f l = .ok l₁) : l₁ = l.map g := by
  induction l generalizing l₁ with
  | nil =>
    simp only [mapExcept] at h
    cases h
    rfl
  | cons a as ih =>
    simp only [mapExcept] at h
    cases hfa : f a <;> rw [hfa] at h
    · exact absurd h (by simp)
    · cases hm : mapExcept f as <;> rw [hm] at h
      · exact absurd h (by simp)
      · cases h
        simp [hfg _ _ hfa, ih _ hm]

theorem mapExcept_ok_idem (f : α → Except String α)
    (hid : ∀ a b, f a = .ok b → f b = .ok b) (l : List α) (l₁ : List α)
    (h : mapExcept f l = .ok l₁) : mapExcept f l₁ = .ok l₁ := by
  induction l generalizing l₁ with
  | nil =>
    simp only [mapExcept] at h
    cases h
    rfl
  | cons a as ih =>
    simp only [mapExcept] at h
    cases hfa : f a <;> rw [hfa] at h
    · exact absurd h (by simp)
    · cases hm : mapExcept f as <;> rw [hm] at h
      · exact absurd h (by simp)
      · cases h
        simp only [mapExcept, hid _ _ hfa, ih _ hm]

theorem mapExcept_error_of_mem (f : α → Except String β) (l : List α)
    (a : α) (e : String) (ha : a ∈ l) (he : f a = .error e) :
    ∃ e₁, mapExcept f l = .error e₁ := by
  induction l with
  | nil => cases ha
  | cons b bs ih =>
    simp only [mapExcept]
    cases hfb : f b with
    | error e₂ => exact ⟨e₂, rfl⟩
    | ok c =>
      rcases List.mem_cons.mp ha with hab | hmem
      · subst hab
        rw [he] at hfb
        cases hfb
      · rcases ih hmem with ⟨e₁, hm⟩
        rw [hm]
        exact ⟨e₁, rfl⟩

/-! Helper lemmas about the rounding pass. -/

theorem roundCell_ok (c c₁ : Cell) (h : roundCell c = .ok c₁) :
    c₁ = roundCellTotal c := by
  cases c <;> simp only [roundCell, roundCellTotal] at h ⊢ <;> cases h <;> rfl

theorem roundCell_idem (c c₁ : Cell) (h : roundCell c = .ok c₁) :
    roundCell c₁ = .ok c₁ := by
  cases c <;> simp only [roundCell] at h <;> cases h <;> rfl

theorem process_dfRow_ok_eq (h : List String) (r r₁ : List Cell)
    (hok : process_dfRow h r = .ok r₁) : r₁ = (h.zip r).map stepCell := by
  induction h generalizing r r₁ with
  | nil =>
    cases r <;> simp only [process_dfRow] at hok <;> cases hok <;> rfl
  | cons n h ih =>
    cases r with
    | nil =>
      simp only [process_dfRow] at hok
      cases hok
      rfl
    | cons c r =>
      simp only [process_dfRow] at hok
      by_cases hm : matchXYZ n
      · rw [if_pos hm] at hok
        cases hc : roundCell c <;> rw [hc] at hok
        · exact absurd hok (by simp)
        · cases hr : process_dfRow h r <;> rw [hr] at hok
          · exact absurd hok (by simp)
          · cases hok
            simp [stepCell, hm, roundCell_ok _ _ hc, ih _ _ hr]
      · rw [if_neg hm] at hok
        cases hr : process_dfRow h r <;> rw [hr] at hok
        · exact absurd hok (by simp)
        · cases hok
          simp [stepCell, hm, ih _ _ hr]

theorem process_dfRow_idem (h : List String) (r r₁ : List Cell)
    (hok : process_dfRow h r = .ok r₁) : process_dfRow h r₁ = .ok r₁ := by
  induction h generalizing r r₁ with
  | nil =>
    cases r <;> simp only [process_dfRow] at hok <;> cases hok <;> rfl
  | cons n h ih =>
    cases r with
    | nil =>
      simp only [process_dfRow] at hok
      cases hok
      rfl
    | cons c r =>
      simp only [process_dfRow] at hok
      by_cases hm : matchXYZ n
      · rw [if_pos hm] at hok
        cases hc : roundCell c <;> rw [hc] at hok
        · exact absurd hok (by simp)
        · cases hr : process_dfRow h r <;> rw [hr] at hok
          · exact absurd hok (by simp)
          · cases hok
            simp only [process_dfRow, if_pos hm, roundCell_idem _ _ hc, ih _ _ hr]
      · rw [if_neg hm] at hok
        cases hr : process_dfRow h r <;> rw [hr] at hok
        · exact absurd hok (by simp)
        · cases hok
          simp only [process_dfRow, if_neg hm, ih _ _ hr]

theorem process_dfRow_ok_length (h : List String) (r r₁ : List Cell)
    (hok : process_dfRow h r = .ok r₁) : r₁.length ≤ h.length := by
  have := process_dfRow_ok_eq h r r₁ hok
  subst this
  calc ((h.zip r).map stepCell).length = (h.zip r).length := List.length_map _ _
    _ ≤ h.length := by rw [List.length_zip]; exact Nat.min_le_left _ _

/-! Helper lemmas about process_df at the table level. -/

theorem process_df_ok (t t₁ : Table) (hok : process_df t = .ok t₁) :
    t₁.header = t.header ∧
      t₁.rows = t.rows.map (fun r => (t.header.zip r).map stepCell) := by
  unfold process_df at hok
  cases hm : mapExcept (process_dfRow t.header) t.rows <;> rw [hm] at hok
  · exact absurd hok (by simp)
  · cases hok
    refine ⟨rfl, ?_⟩
    exact mapExcept_ok_map _ _ (fun r r₁ hr => process_dfRow_ok_eq _ _ _ hr)
      _ _ hm

theorem process_df_idem (t t₁ : Table) (hok : process_df t = .ok t₁) :
    process_df t₁ = .ok t₁ := by
  unfold process_df at hok
  cases hm : mapExcept (process_dfRow t.header) t.rows <;> rw [hm] at hok
  · exact absurd hok (by simp)
  · cases hok
    have hidem := mapExcept_ok_idem _ (fun r r₁ hr => process_dfRow_idem _ _ _ hr)
      _ _ hm
    simp only [process_df, hidem]

theorem process_df_rows_length (t t₁ : Table) (hok : process_df t = .ok t₁) :
    ∀ r ∈ t₁.rows, r.length ≤ t₁.header.length := by
  obtain ⟨hh, hr⟩ := process_df_ok t t₁ hok
  rw [hh, hr]
  intro r hmem
  rcases List.mem_map.mp hmem with ⟨r₀, _, hr₀⟩
  subst hr₀
  calc ((t.header.zip r₀).map stepCell).length
      = (t.header.zip r₀).length := List.length_map _ _
    _ ≤ t.header.length := by rw [List.length_zip]; exact Nat.min_le_left _ _

/-! Helper lemmas about the confidence-column drop. -/

theorem listMapSelf {γ : Type} {l : List γ} {f : γ → γ}
    (h : ∀ x ∈ l, f x = x) : l.map f = l := by
  induction l with
  | nil => rfl
  | cons a as ih =>
    simp only [List.map_cons]
    rw [h a (List.mem_cons_self _ _), ih (fun x hx => h x (List.mem_cons_of_mem _ hx))]

theorem dropConfRow_noop (h : List String) (r : List Cell)
    (hnc : ∀ n ∈ h, isConfCol n = false) (hlen : r.length ≤ h.length) :
    dropConfRow h r = r := by
  induction h generalizing r with
  | nil =>
    cases r with
    | nil => rfl
    | cons c r => exact absurd hlen (by simp)
  | cons n h ih =>
    cases r with
    | nil => rfl
    | cons c r =>
      have hn : isConfCol n = false := hnc n (List.mem_cons_self _ _)
      simp only [dropConfRow, hn, Bool.false_eq_true, if_false]
      rw [ih r (fun m hm => hnc m (List.mem_cons_of_mem _ hm))
        (Nat.le_of_succ_le_succ hlen)]

theorem dropConfidence_noop (t : Table)
    (hle : ∀ r ∈ t.rows, r.length ≤ t.header.length)
    (hnc : ∀ n ∈ t.header, isConfCol n = false) : dropConfidence t = t := by
  unfold dropConfidence
  have hh : t.header.filter (fun n => !isConfCol n) = t.header := by
    apply List.filter_eq_self.mpr
    intro n hn
    simp [hnc n hn]
  have hr : t.rows.map (dropConfRow t.header) = t.rows := by
    apply listMapSelf
    intro r hrmem
    exact dropConfRow_noop _ _ hnc (hle r hrmem)
  rw [hh, hr]

theorem dropConfRow_length (h : List String) (r : List Cell) :
    (dropConfRow h r).length ≤ (h.filter (fun n => !isConfCol n)).length := by
  induction h generalizing r with
  | nil => cases r <;> simp [dropConfRow]
  | cons n h ih =>
    cases r with
    | nil => simp [dropConfRow]
    | cons c r =>
      simp only [dropConfRow, List.filter_cons]
      by_cases hn : isConfCol n
      · simp only [hn, if_true, Bool.not_true, Bool.false_eq_true, if_false]
        exact Nat.le_trans (ih r) (by simp)
      · simp only [hn, Bool.false_eq_true, if_false, Bool.not_false, if_true,
          List.length_cons]
        exact Nat.succ_le_succ (ih r)

theorem dropConfidence_rows_length (t : Table) :
    ∀ r ∈ (dropConfidence t).rows, r.length ≤ (dropConfidence t).header.length := by
  intro r hmem
  unfold dropConfidence at hmem ⊢
  rcases List.mem_map.mp hmem with ⟨r₀, _, hr₀⟩
  subst hr₀
  exact dropConfRow_length t.header r₀

/-! Idempotence of the per-file pipeline. -/

theorem transform_ok_idem (t : Table) (f : Bool) (t₁ : Table)
    (hok : transform t f = .ok t₁) : transform t₁ f = .ok t₁ := by
  cases f with
  | false =>
    simp only [transform, if_false, Bool.false_eq_true] at hok ⊢
    exact process_df_idem _ _ hok
  | true =>
    simp only [transform, if_true] at hok ⊢
    have hdrop : dropConfidence t₁ = t₁ := by
      obtain ⟨hh, _⟩ := process_df_ok _ _ hok
      apply dropConfidence_noop
      · exact process_df_rows_length _ _ hok
      · intro n hn
        rw [hh] at hn
        unfold dropConfidence at hn
        simp only at hn
        have := List.mem_filter.mp hn
        simpa using this.2
    rw [hdrop]
    exact process_df_idem _ _ hok

/-! Helper lemmas about the name-to-file dictionary. -/

theorem file_map_append (l₁ l₂ : List InputFile) (n : String) :
    file_map (l₁ ++ l₂) n =
      (match file_map l₂ n with
        | some t => some t
        | none => file_map l₁ n) := by
  induction l₁ with
  | nil =>
    simp only [List.nil_append, file_map]
    cases file_map l₂ n <;> rfl
  | cons f fs ih =>
    simp only [List.cons_append, file_map, List.append_eq, ih]
    cases file_map l₂ n <;> cases file_map fs n <;> rfl

theorem file_map_none_of_all_ne (l : List InputFile) (n : String)
    (h : ∀ x ∈ l, x.name ≠ n) : file_map l n = none := by
  induction l with
  | nil => rfl
  | cons f fs ih =>
    simp only [file_map, ih (fun x hx => h x (List.mem_cons_of_mem _ hx))]
    rw [if_neg (h f (List.mem_cons_self _ _))]

/-! Helper lemmas about row records and the union header. -/

theorem rowLookup_not_mem (h : List String) (r : List Cell) (n : String)
    (hn : n ∉ h) : rowLookup h r n = .null := by
  induction h generalizing r with
  | nil => cases r <;> rfl
  | cons m h ih =>
    cases r with
    | nil => rfl
    | cons c r =>
      simp only [rowLookup]
      rw [if_neg (fun hmn : m = n => hn (by rw [← hmn]; exact List.mem_cons_self _ _))]
      exact ih r (fun hmem => hn (List.mem_cons_of_mem _ hmem))

theorem rowLookup_map_self (u : List String) (g : String → Cell) (n : String)
    (hn : n ∈ u) : rowLookup u (u.map g) n = g n := by
  induction u with
  | nil => cases hn
  | cons m u ih =>
    simp only [List.map_cons, rowLookup]
    by_cases hmn : m = n
    · rw [if_pos hmn, hmn]
    · rw [if_neg hmn]
      rcases List.mem_cons.mp hn with hnm | hmem
      · exact absurd hnm.symm hmn
      · exact ih hmem

theorem alignRow_record (h u : List String) (r : List Cell)
    (hsub : ∀ x ∈ h, x ∈ u) :
    (fun n => rowLookup u (alignRow h u r) n) = fun n => rowLookup h r n := by
  funext n
  by_cases hn : n ∈ u
  · exact rowLookup_map_self u (rowLookup h r) n hn
  · rw [rowLookup_not_mem u _ n hn,
      rowLookup_not_mem h r n (fun hmem => hn (hsub n hmem))]

theorem addCols_mem (h : List String) (acc : List String) (n : String) :
    n ∈ addCols acc h ↔ n ∈ acc ∨ n ∈ h := by
  induction h generalizing acc with
  | nil => simp [addCols]
  | cons m h ih =>
    simp only [addCols, List.foldl_cons] at ih ⊢
    by_cases hm : m ∈ acc
    · rw [if_pos hm, ih]
      constructor
      · intro hc
        rcases hc with hc | hc
        · exact Or.inl hc
        · exact Or.inr (List.mem_cons_of_mem _ hc)
      · intro hc
        rcases hc with hc | hc
        · exact Or.inl hc
        · rcases List.mem_cons.mp hc with hc | hc
          · exact Or.inl (hc ▸ hm)
          · exact Or.inr hc
    · rw [if_neg hm, ih]
      constructor
      · intro hc
        rcases hc with hc | hc
        · rcases List.mem_append.mp hc with hc | hc
          · exact Or.inl hc
          · exact Or.inr (List.mem_cons.mpr (Or.inl (List.mem_singleton.mp hc)))
        · exact Or.inr (List.mem_cons_of_mem _ hc)
      · intro hc
        rcases hc with hc | hc
        · exact Or.inl (List.mem_append.mpr (Or.inl hc))
        · rcases List.mem_cons.mp hc with hc | hc
          · exact Or.inl (List.mem_append.mpr (Or.inr (by simp [hc])))
          · exact Or.inr hc

theorem unionHeaders_aux (ts : List Table) (acc : List String) (n : String) :
    n ∈ ts.foldl (fun a t => addCols a t.header) acc ↔
      n ∈ acc ∨ ∃ t, t ∈ ts ∧ n ∈ t.header := by
  induction ts generalizing acc with
  | nil => simp
  | cons t ts ih =>
    simp only [List.foldl_cons, ih, addCols_mem]
    constructor
    · intro hc
      rcases hc with (hc | hc) | ⟨t₁, ht₁, hn⟩
      · exact Or.inl hc
      · exact Or.inr ⟨t, List.mem_cons_self _ _, hc⟩
      · exact Or.inr ⟨t₁, List.mem_cons_of_mem _ ht₁, hn⟩
    · intro hc
      rcases hc with hc | ⟨t₁, ht₁, hn⟩
      · exact Or.inl (Or.inl hc)
      · rcases List.mem_cons.mp ht₁ with ht | ht
        · exact Or.inl (Or.inr (ht ▸ hn))
        · exact Or.inr ⟨t₁, ht, hn⟩

theorem unionHeaders_mem (ts : List Table) (n : String) :
    n ∈ unionHeaders ts ↔ ∃ t, t ∈ ts ∧ n ∈ t.header := by
  unfold unionHeaders
  rw [unionHeaders_aux]
  simp

/-! Helper lemma counting the dropped confidence columns. -/

theorem length_filter_not_add_countP (l : List String) (p : String → Bool) :
    (l.filter (fun n => !p n)).length + l.countP p = l.length := by
  induction l with
  | nil => rfl
  | cons n l ih =>
    by_cases hn : p n <;> simp [List.filter_cons, List.countP_cons, hn] <;>
      omega

/-! The claims. -/

/-- C1: in the concrete scenario, file1 has columns Name, Pos_X, Pos_Y,
Pos_Confidence with single row a, 1.6, 2.4, 0.91 and file2 has columns
Name, Pos_X, Pos_Y with single row b, 3.5, 4.5. Merging both in order with
dropConfidenceColumns set yields the header Name, Pos_X, Pos_Y followed by
the row a, 2, 2 and then the row b, 4, 4. The implementation rounds
half-to-even (numpy rint), under which 3.5 and 4.5 both round to 4. -/
theorem merge_concrete_scenario :
    merge [file1, file2] ["file1.csv", "file2.csv"] true =
      .ok "Name,Pos_X,Pos_Y\na,2,2\nb,4,4\n" := rfl

/-- C4 counterexample: the claim says an unparseable value in a matched
column remains missing and the transform never crashes on it; in the code
an unparseable value makes the column object dtype and pandas round raises
a TypeError, so the transform fails instead. -/
theorem transform_unparseable_crash_cex :
    transform ⟨["A_X"], [[Cell.str "abc"]]⟩ false =
      .error "TypeError: cannot round non-numeric value abc" := rfl

/-- C4 as amended: when the transform succeeds, in every matched column a
missing value stays missing (never zero), a decimal becomes the exact
rounded Int64 integer, which serializes as an exact integer even in a
column that also holds a missing value; but a matched column holding an
unparseable (string) value makes the transform raise instead of
propagating a missing value. -/
theorem transform_null_int_exact (t : Table) (f : Bool) (t₁ : Table)
    (m : ℤ) (e : ℕ) (s : String) (k : ℤ)
    (hok : transform t f = .ok t₁) :
    t₁.rows = (if f then dropConfidence t else t).rows.map
      (fun r => (((if f then dropConfidence t else t).header).zip r).map stepCell) ∧
    roundCellTotal Cell.null = Cell.null ∧
    renderCell Cell.null = "" ∧
    roundCellTotal (Cell.num m e) = Cell.int (roundHalfEvenDec m e) ∧
    renderCell (Cell.int k) = toString k ∧
    roundCell (Cell.str s) =
      .error ("TypeError: cannot round non-numeric value " ++ s) := by
  obtain ⟨_, hr⟩ := process_df_ok _ _ hok
  exact ⟨hr, rfl, rfl, rfl, rfl, rfl⟩

/-- C4 witness at a concrete table: a matched column holding a missing
value and the decimal 1.5. -/
theorem transform_null_int_exact_witness :
    tN₁.rows = (if false then dropConfidence tN else tN).rows.map
      (fun r => (((if false then dropConfidence tN else tN).header).zip r).map stepCell) ∧
    roundCellTotal Cell.null = Cell.null ∧
    renderCell Cell.null = "" ∧
    roundCellTotal (Cell.num 15 1) = Cell.int (roundHalfEvenDec 15 1) ∧
    renderCell (Cell.int 2) = toString (2 : ℤ) ∧
    roundCell (Cell.str "abc") =
      .error ("TypeError: cannot round non-numeric value " ++ "abc") :=
  transform_null_int_exact tN false tN₁ 15 1 "abc" 2 rfl

/-- C5: the rounding pass is triggered exactly by a case-sensitive exact
suffix match on the column name: the output rows are those of the input
with the cell of every column whose name ends in _X, _Y or _Z rounded and
every other cell untouched; Joint1_X qualifies while Joint1_Xray and
Joint1_x do not. -/
theorem process_df_suffix_rule (t t₁ : Table) (p q : String × Cell)
    (hok : process_df t = .ok t₁) (hp : matchXYZ p.1 = false)
    (hq : matchXYZ q.1 = true) :
    t₁.header = t.header ∧
    t₁.rows = t.rows.map (fun r => (t.header.zip r).map stepCell) ∧
    stepCell p = p.2 ∧
    stepCell q = roundCellTotal q.2 ∧
    matchXYZ "Joint1_X" = true ∧
    matchXYZ "Joint1_Xray" = false ∧
    matchXYZ "Joint1_x" = false := by
  obtain ⟨hh, hr⟩ := process_df_ok t t₁ hok
  refine ⟨hh, hr, ?_, ?_, by decide, by decide, by decide⟩
  · simp [stepCell, hp]
  · simp [stepCell, hq]

/-- C5 witness at a concrete table and concrete matched and unmatched
column names. -/
theorem process_df_suffix_rule_witness :
    tX₁.header = tX.header ∧
    tX₁.rows = tX.rows.map (fun r => (tX.header.zip r).map stepCell) ∧
    stepCell ("Joint1_Xray", Cell.num 15 1) = (("Joint1_Xray", Cell.num 15 1) : String × Cell).2 ∧
    stepCell ("Joint1_X", Cell.null) = roundCellTotal (("Joint1_X", Cell.null) : String × Cell).2 ∧
    matchXYZ "Joint1_X" = true ∧
    matchXYZ "Joint1_Xray" = false ∧
    matchXYZ "Joint1_x" = false :=
  process_df_suffix_rule tX tX₁ ("Joint1_Xray", Cell.num 15 1)
    ("Joint1_X", Cell.null) rfl (by decide) (by decide)

/-- C6: with dropConfidenceColumns set, the transform removes exactly the
columns whose names end in _Confidence (the output header is the input
header with those filtered out), and on a table with no such column the
removal step is a no-op, not an error. -/
theorem transform_drop_confidence (t t₁ u : Table)
    (hok : transform t true = .ok t₁) (hwf : u.WF)
    (hnc : ∀ n ∈ u.header, isConfCol n = false) :
    t₁.header = t.header.filter (fun n => !isConfCol n) ∧
    dropConfidence u = u := by
  obtain ⟨hh, _⟩ := process_df_ok _ _ hok
  refine ⟨hh.trans rfl, ?_⟩
  exact dropConfidence_noop u (fun r hr => Nat.le_of_eq (hwf r hr)) hnc

/-- C6 witness: a concrete table with a confidence column is stripped of
exactly that column, and a concrete table without one is unchanged. -/
theorem transform_drop_confidence_witness :
    tX₁.header = tConf.header.filter (fun n => !isConfCol n) ∧
    dropConfidence tQ = tQ :=
  transform_drop_confidence tConf tX₁ tQ rfl (by decide) (by decide)

/-- C7: the transform preserves the row count and the relative order of the
surviving columns, and changes only the values of the matched columns:
with the flag unset the header is unchanged, with the flag set the header
is the input header minus exactly the confidence columns, the output rows
are the pointwise stepCell image of the surviving cells, and an unmatched
cell is untouched. -/
theorem transform_frame (t : Table) (f : Bool) (t₁ : Table)
    (p : String × Cell) (hok : transform t f = .ok t₁)
    (hp : matchXYZ p.1 = false) :
    t₁.rows.length = t.rows.length ∧
    t₁.header = (if f then t.header.filter (fun n => !isConfCol n) else t.header) ∧
    t₁.header.length +
      (if f then t.header.countP (fun n => isConfCol n) else 0) =
        t.header.length ∧
    t₁.rows = (if f then dropConfidence t else t).rows.map
      (fun r => (((if f then dropConfidence t else t).header).zip r).map stepCell) ∧
    stepCell p = p.2 := by
  obtain ⟨hh, hr⟩ := process_df_ok _ _ hok
  have hlen : t₁.rows.length = t.rows.length := by
    rw [hr]
    cases f with
    | false => simp
    | true => simp [dropConfidence]
  have hhead : t₁.header =
      (if f then t.header.filter (fun n => !isConfCol n) else t.header) := by
    rw [hh]
    cases f with
    | false => simp
    | true => simp [dropConfidence]
  refine ⟨hlen, hhead, ?_, hr, by simp [stepCell, hp]⟩
  rw [hhead]
  cases f with
  | false => simp
  | true =>
    simp only [if_true]
    exact length_filter_not_add_countP t.header (fun n => isConfCol n)

/-- C7 witness at a concrete table with one confidence column, flag set,
with a concrete unmatched cell. -/
theorem transform_frame_witness :
    tX₁.rows.length = tConf.rows.length ∧
    tX₁.header = (if true then tConf.header.filter (fun n => !isConfCol n) else tConf.header) ∧
    tX₁.header.length +
      (if true then tConf.header.countP (fun n => isConfCol n) else 0) =
        tConf.header.length ∧
    tX₁.rows = (if true then dropConfidence tConf else tConf).rows.map
      (fun r => (((if true then dropConfidence tConf else tConf).header).zip r).map stepCell) ∧
    stepCell ("Q", Cell.str "v") = (("Q", Cell.str "v") : String × Cell).2 :=
  transform_frame tConf true tX₁ ("Q", Cell.str "v") rfl (by decide)

/-- C8 counterexample: the claim says the transform has no side effect on
its input table, but process_df assigns the rounded columns back into its
argument DataFrame and returns that very object, so after the call the
argument holds the transformed table, which differs from the original. -/
theorem process_df_mutates_argument_cex :
    process_df_argAfterCall tX = .ok tX₁ ∧ tX₁ ≠ tX :=
  ⟨rfl, by decide⟩

/-- C8 as amended: the per-file transform is idempotent: whenever it
succeeds, applying it again to its output succeeds and is the identity;
purity fails because process_df updates its argument in place. -/
theorem transform_idempotent (t : Table) (f : Bool) (t₁ : Table)
    (hok : transform t f = .ok t₁) : transform t₁ f = .ok t₁ :=
  transform_ok_idem t f t₁ hok

/-- C8 witness: idempotence at a concrete table. -/
theorem transform_idempotent_witness : transform tX₁ false = .ok tX₁ :=
  transform_idempotent tX false tX₁ rfl

/-! Remaining helpers for the merge-level claims. -/

theorem listMapEq {γ δ : Type} {l : List γ} {f g : γ → δ}
    (h : ∀ x ∈ l, f x = g x) : l.map f = l.map g := by
  induction l with
  | nil => rfl
  | cons a as ih =>
    simp only [List.map_cons]
    rw [h a (List.mem_cons_self _ _), ih (fun x hx => h x (List.mem_cons_of_mem _ hx))]

theorem merge_congr (files₁ files₂ : List InputFile) (order : List String)
    (b : Bool) (h : ∀ n, file_map files₁ n = file_map files₂ n) :
    merge files₁ order b = merge files₂ order b := by
  unfold merge
  have hfun : (fun n =>
      match file_map files₁ n with
      | some t => transform t b
      | none => Except.error ("KeyError: " ++ n)) = (fun n =>
      match file_map files₂ n with
      | some t => transform t b
      | none => Except.error ("KeyError: " ++ n)) := by
    funext n
    rw [h n]
  rw [hfun]

theorem file_map_override (pre mid post : List InputFile) (f g : InputFile)
    (n : String) (hname : f.name = g.name) :
    file_map (pre ++ f :: (mid ++ g :: post)) n =
      file_map (pre ++ (mid ++ g :: post)) n := by
  rw [file_map_append, file_map_append]
  have hcons : file_map (f :: (mid ++ g :: post)) n =
      (match file_map (mid ++ g :: post) n with
        | some t => some t
        | none => if f.name = n then some f.table else none) := rfl
  rw [hcons]
  cases hx : file_map (mid ++ g :: post) n with
  | some t => rfl
  | none =>
    have hgn : ¬ g.name = n := by
      intro hgn
      rw [file_map_append] at hx
      have hg : file_map (g :: post) n =
          (match file_map post n with
            | some t => some t
            | none => if g.name = n then some g.table else none) := rfl
      rw [hg] at hx
      cases hp : file_map post n <;> rw [hp] at hx
      · rw [if_pos hgn] at hx
        cases hx
      · cases hx
    rw [if_neg (fun hfn => hgn (hname ▸ hfn))]

/-- C2 counterexample: with uploads A.csv and B.csv, the order consisting
of A.csv alone is not a permutation of the uploaded identifiers (B.csv is
missing from it), yet merge does not fail with any error: it silently
produces output holding only the rows of A.csv. -/
theorem merge_subset_order_cex :
    "B.csv" ∈ [fileA, fileB].map InputFile.name ∧
    "B.csv" ∉ ["A.csv"] ∧
    merge [fileA, fileB] ["A.csv"] false = .ok "P_X\n2\n" :=
  ⟨by decide, by decide, rfl⟩

/-- C2 as amended: the handler never validates the order against the
uploaded set. When the order contains a name matching no uploaded file the
lookup raises (KeyError) and merge produces no output; but an order that
merely omits uploaded names is accepted and silently yields output without
the rows of the omitted files. -/
theorem merge_unknown_name_error (files : List InputFile)
    (order : List String) (b : Bool) (n : String) (hmem : n ∈ order)
    (hnone : file_map files n = none) :
    isErr (merge files order b) = true := by
  obtain ⟨e₁, hm⟩ := mapExcept_error_of_mem
    (fun n =>
      match file_map files n with
      | some t => transform t b
      | none => Except.error ("KeyError: " ++ n))
    order n ("KeyError: " ++ n) hmem (by simp [hnone])
  unfold merge
  rw [hm]
  rfl

/-- C2 witness: merging with an order naming a file never uploaded fails
and offers no output. -/
theorem merge_unknown_name_error_witness :
    isErr (merge [fileA] ["Z.csv"] false) = true :=
  merge_unknown_name_error [fileA] ["Z.csv"] false "Z.csv" (by decide) rfl

/-- C3: merge is order-sensitive but content-preserving: merging two
distinctly named files in either order concatenates the two transformed
row blocks in that order (each block in intra-file order), both outputs
have the same row count, and the two outputs carry the same multiset of
rows when a row is read as the record mapping each column name to its
value. -/
theorem merge_order_sensitive (A B : InputFile) (b : Bool) (A₁ B₁ : Table)
    (hname : A.name ≠ B.name) (hA : transform A.table b = .ok A₁)
    (hB : transform B.table b = .ok B₁) :
    merge [A, B] [A.name, B.name] b = .ok (serialize (concatTables [A₁, B₁])) ∧
    merge [A, B] [B.name, A.name] b = .ok (serialize (concatTables [B₁, A₁])) ∧
    (concatTables [A₁, B₁]).rows =
      A₁.rows.map (alignRow A₁.header (unionHeaders [A₁, B₁])) ++
        B₁.rows.map (alignRow B₁.header (unionHeaders [A₁, B₁])) ∧
    (concatTables [B₁, A₁]).rows =
      B₁.rows.map (alignRow B₁.header (unionHeaders [B₁, A₁])) ++
        A₁.rows.map (alignRow A₁.header (unionHeaders [B₁, A₁])) ∧
    (concatTables [A₁, B₁]).rows.length = (concatTables [B₁, A₁]).rows.length ∧
    records (concatTables [A₁, B₁]) = records A₁ ++ records B₁ ∧
    records (concatTables [B₁, A₁]) = records B₁ ++ records A₁ ∧
    (records (concatTables [A₁, B₁]) : Multiset (String → Cell)) =
      (records (concatTables [B₁, A₁]) : Multiset (String → Cell)) := by
  have hfa : file_map [A, B] A.name = some A.table := by
    simp [file_map, Ne.symm hname]
  have hfb : file_map [A, B] B.name = some B.table := by
    simp [file_map]
  have hm1 : merge [A, B] [A.name, B.name] b =
      .ok (serialize (concatTables [A₁, B₁])) := by
    unfold merge
    simp only [mapExcept, hfa, hfb, hA, hB]
    rfl
  have hm2 : merge [A, B] [B.name, A.name] b =
      .ok (serialize (concatTables [B₁, A₁])) := by
    unfold merge
    simp only [mapExcept, hfa, hfb, hA, hB]
    rfl
  have hrows : ∀ t₁ t₂ : Table, (concatTables [t₁, t₂]).rows =
      t₁.rows.map (alignRow t₁.header (unionHeaders [t₁, t₂])) ++
        t₂.rows.map (alignRow t₂.header (unionHeaders [t₁, t₂])) := by
    intro t₁ t₂
    simp [concatTables, concatRows]
  have hrec : ∀ t₁ t₂ : Table,
      records (concatTables [t₁, t₂]) = records t₁ ++ records t₂ := by
    intro t₁ t₂
    unfold records
    rw [hrows t₁ t₂]
    rw [List.map_append, List.map_map, List.map_map]
    congr 1
    · apply listMapEq
      intro r _
      simp only [Function.comp]
      exact alignRow_record t₁.header (unionHeaders [t₁, t₂]) r
        (fun x hx => (unionHeaders_mem [t₁, t₂] x).mpr
          ⟨t₁, List.mem_cons_self _ _, hx⟩)
    · apply listMapEq
      intro r _
      simp only [Function.comp]
      exact alignRow_record t₂.header (unionHeaders [t₁, t₂]) r
        (fun x hx => (unionHeaders_mem [t₁, t₂] x).mpr
          ⟨t₂, List.mem_cons_of_mem _ (List.mem_cons_self _ _), hx⟩)
  have hlen : (concatTables [A₁, B₁]).rows.length =
      (concatTables [B₁, A₁]).rows.length := by
    rw [hrows A₁ B₁, hrows B₁ A₁]
    simp [Nat.add_comm]
  have hmult : (records (concatTables [A₁, B₁]) : Multiset (String → Cell)) =
      (records (concatTables [B₁, A₁]) : Multiset (String → Cell)) := by
    rw [hrec A₁ B₁, hrec B₁ A₁]
    exact Multiset.coe_eq_coe.mpr List.perm_append_comm
  exact ⟨hm1, hm2, hrows A₁ B₁, hrows B₁ A₁, hlen, hrec A₁ B₁, hrec B₁ A₁, hmult⟩

/-- C3 witness at two concrete distinctly named files. -/
theorem merge_order_sensitive_witness :
    merge [fileA, fileB] [fileA.name, fileB.name] false =
      .ok (serialize (concatTables [tX₁, tQ])) ∧
    merge [fileA, fileB] [fileB.name, fileA.name] false =
      .ok (serialize (concatTables [tQ, tX₁])) ∧
    (concatTables [tX₁, tQ]).rows =
      tX₁.rows.map (alignRow tX₁.header (unionHeaders [tX₁, tQ])) ++
        tQ.rows.map (alignRow tQ.header (unionHeaders [tX₁, tQ])) ∧
    (concatTables [tQ, tX₁]).rows =
      tQ.rows.map (alignRow tQ.header (unionHeaders [tQ, tX₁])) ++
        tX₁.rows.map (alignRow tX₁.header (unionHeaders [tQ, tX₁])) ∧
    (concatTables [tX₁, tQ]).rows.length = (concatTables [tQ, tX₁]).rows.length ∧
    records (concatTables [tX₁, tQ]) = records tX₁ ++ records tQ ∧
    records (concatTables [tQ, tX₁]) = records tQ ++ records tX₁ ∧
    (records (concatTables [tX₁, tQ]) : Multiset (String → Cell)) =
      (records (concatTables [tQ, tX₁]) : Multiset (String → Cell)) :=
  merge_order_sensitive fileA fileB false tX₁ tQ (by decide) rfl rfl

/-- C9: the combined header is the union of the source headers in order of
first encounter across the merge order (a name is a combined column
exactly when some source table has it); a source row is reindexed to the
union header by name lookup, a column absent from the source header gets
the missing marker, and a missing value serializes as an empty field. -/
theorem concat_union_policy (ts : List Table) (m n : String)
    (h u : List String) (r : List Cell) (hn : n ∉ h) :
    (concatTables ts).header = unionHeaders ts ∧
    (unionHeaders ts).contains m = ts.any (fun t => t.header.contains m) ∧
    alignRow h u r = u.map (rowLookup h r) ∧
    rowLookup h r n = Cell.null ∧
    renderCell Cell.null = "" := by
  refine ⟨rfl, ?_, rfl, rowLookup_not_mem h r n hn, rfl⟩
  have hcm : ∀ (l : List String) (a : String), l.contains a = true ↔ a ∈ l := by
    intro l a
    exact List.elem_iff
  have hiff : (unionHeaders ts).contains m = true ↔
      ts.any (fun t => t.header.contains m) = true := by
    rw [hcm, List.any_eq_true]
    rw [unionHeaders_mem]
    constructor
    · rintro ⟨t, ht, hm⟩
      exact ⟨t, ht, (hcm _ _).mpr hm⟩
    · rintro ⟨t, ht, hm⟩
      exact ⟨t, ht, (hcm _ _).mp hm⟩
  cases hc : (unionHeaders ts).contains m with
  | true => exact (hiff.mp hc).symm
  | false =>
    cases ha : ts.any (fun t => t.header.contains m) with
    | true =>
      rw [hiff.mpr ha] at hc
      cases hc
    | false => rfl

/-- C9 witness at two concrete tables with differing column sets. -/
theorem concat_union_policy_witness :
    (concatTables [tX₁, tQ]).header = unionHeaders [tX₁, tQ] ∧
    (unionHeaders [tX₁, tQ]).contains "Q" =
      [tX₁, tQ].any (fun t => t.header.contains "Q") ∧
    alignRow ["P_X"] ["P_X", "Q"] [Cell.int 2] =
      ["P_X", "Q"].map (rowLookup ["P_X"] [Cell.int 2]) ∧
    rowLookup ["P_X"] [Cell.int 2] "Q" = Cell.null ∧
    renderCell Cell.null = "" :=
  concat_union_policy [tX₁, tQ] "Q" "Q" ["P_X"] ["P_X", "Q"] [Cell.int 2]
    (by decide)

/-- C10: the name-to-file dictionary is keyed by file name alone, so a
later upload with the same name silently replaces an earlier one: the name
resolves to the later file, merging with the earlier duplicate present
equals merging without it (its rows never appear in any output), and when
no later file reuses the name the lookup returns the later table. -/
theorem file_map_last_wins (pre mid post : List InputFile)
    (f g : InputFile) (order : List String) (b : Bool) (n : String)
    (hname : f.name = g.name) (hpost : ∀ x ∈ post, x.name ≠ g.name) :
    file_map (pre ++ f :: (mid ++ g :: post)) n =
      file_map (pre ++ (mid ++ g :: post)) n ∧
    merge (pre ++ f :: (mid ++ g :: post)) order b =
      merge (pre ++ (mid ++ g :: post)) order b ∧
    file_map (pre ++ f :: (mid ++ g :: post)) g.name = some g.table := by
  refine ⟨file_map_override pre mid post f g n hname, ?_, ?_⟩
  · exact merge_congr _ _ order b
      (fun n₁ => file_map_override pre mid post f g n₁ hname)
  · rw [file_map_override pre mid post f g g.name hname]
    rw [file_map_append]
    have hpost₁ : file_map post g.name = none :=
      file_map_none_of_all_ne post g.name hpost
    have hg : file_map (mid ++ g :: post) g.name = some g.table := by
      rw [file_map_append]
      have hcons : file_map (g :: post) g.name =
          (match file_map post g.name with
            | some t => some t
            | none => if g.name = g.name then some g.table else none) := rfl
      rw [hcons, hpost₁, if_pos rfl]
    rw [hg]

/-- C10 witness at two concrete uploads sharing the name dup.csv. -/
theorem file_map_last_wins_witness :
    file_map [fileDup1, fileDup2] "dup.csv" = file_map [fileDup2] "dup.csv" ∧
    merge [fileDup1, fileDup2] ["dup.csv"] false =
      merge [fileDup2] ["dup.csv"] false ∧
    file_map [fileDup1, fileDup2] fileDup2.name = some fileDup2.table :=
  file_map_last_wins [] [] [] fileDup1 fileDup2 ["dup.csv"] false "dup.csv"
    rfl (by decide)

end CSVPortal
